import Mathlib

/-
Verification of the width-aware text engine and marquee animator of the
emjtxt repository (src/animation.ts), via a shallow embedding in Lean 4.

Strings are modelled as Lean `String`; the JS iteration `for (const char
of str)` walks Unicode code points, which corresponds to `String.toList`.
JS numbers at the relevant call sites are integers, modelled as `Int`.
-/

namespace Emjtxt

/-- Per-code-point width rule of `getVisibleWidth` (animation.ts lines
34-41): a code point strictly above 0x1F300 counts 2 columns, anything
else counts 1. -/
def charWidth (c : Char) : Nat :=
  if 0x1F300 < c.toNat then 2 else 1

/-- Sum of `charWidth` over a list of code points: the accumulation
performed by the loop of `getVisibleWidth`. -/
def widthL : List Char → Nat
  | [] => 0
  | c :: cs => charWidth c + widthL cs

/-- `getVisibleWidth(str)` from animation.ts lines 30-44. -/
def getVisibleWidth (str : String) : Nat :=
  widthL str.toList

/-- JS `s.repeat(n)` for a nonnegative count: `s` concatenated `n`
times. -/
def strRepeat (s : String) : Nat → String
  | 0 => ""
  | n + 1 => s ++ strRepeat s n

/-- `padToWidth(str, targetWidth, padChar)` from animation.ts lines
49-56: if the current visible width already reaches `targetWidth` the
string is returned unchanged, else the pad string is appended
`targetWidth - currentWidth` times. -/
def padToWidth (str : String) (targetWidth : Int) (padChar : String) : String :=
  let currentWidth : Int := getVisibleWidth str
  if targetWidth ≤ currentWidth then str
  else str ++ strRepeat padChar (targetWidth - currentWidth).toNat

/-- JS `String.prototype.repeat` raises a RangeError on a negative
count; this models that fallible behaviour. -/
def strRepeatE (s : String) (n : Int) : Except String String :=
  if n < 0 then Except.error "RangeError" else Except.ok (strRepeat s n.toNat)

/-- `padToWidth` with the one JS operation that can throw (`repeat`)
modelled as fallible, to settle whether a negative `targetWidth` can
raise. -/
def padToWidthE (str : String) (targetWidth : Int) (padChar : String) :
    Except String String :=
  let currentWidth : Int := getVisibleWidth str
  if targetWidth ≤ currentWidth then Except.ok str
  else (strRepeatE padChar (targetWidth - currentWidth)).map (fun p => str ++ p)

/-- The loop of `visibleSubstring` (animation.ts lines 67-84) on the
code-point list, carrying `currentPos` and `resultWidth`; the collected
characters are returned in order. -/
def vsL (start length : Int) : List Char → Int → Int → List Char
  | [], _, _ => []
  | c :: cs, currentPos, resultWidth =>
    let w : Int := getVisibleWidth (String.singleton c)
    if currentPos + w ≤ start then
      vsL start length cs (currentPos + w) resultWidth
    else if length ≤ resultWidth then
      []
    else
      c :: vsL start length cs (currentPos + w) (resultWidth + w)

/-- `visibleSubstring(str, start, length)` from animation.ts lines
61-87. -/
def visibleSubstring (str : String) (start length : Int) : String :=
  String.mk (vsL start length str.toList 0 0)

/-- Spec reading of the skip phase: units are skipped while their
cumulative width ends at or before `start`; the remaining units are
returned. -/
def specSkip (start : Int) : List Char → Int → List Char
  | [], _ => []
  | c :: cs, pos =>
    if pos + (charWidth c : Int) ≤ start then specSkip start cs (pos + charWidth c)
    else c :: cs

/-- Spec reading of the collect phase: units are collected until the
accumulated output width reaches `length`. -/
def specCollect (length : Int) : List Char → Int → List Char
  | [], _ => []
  | c :: cs, outW =>
    if outW < length then c :: specCollect length cs (outW + charWidth c) else []

/-- The spec's description of `visibleSubstring`: skip units whose
cumulative width ends at or before `start`, then collect units until the
output width reaches `length`, and return the collected run verbatim. -/
def specVisibleSubstring (s : String) (start length : Int) : String :=
  String.mk (specCollect length (specSkip start s.toList 0) 0)

/-- The per-line display computation of the animation loops
(animation.ts lines 134-153 and 205-219): `offset = terminalWidth -
frame`; when the banner is still entering from the right the line is
`offset` spaces followed by a width-`terminalWidth - offset` visible
prefix, otherwise a visible window of width `terminalWidth` starting at
`-offset`; the result is padded to the terminal width. -/
def displayLineCode (line : String) (terminalWidth frame : Int) : String :=
  let offset : Int := terminalWidth - frame
  let d : String :=
    if 0 ≤ offset then
      strRepeat " " offset.toNat ++ visibleSubstring line 0 (terminalWidth - offset)
    else
      visibleSubstring line (-offset) terminalWidth
  padToWidth d terminalWidth " "

/-- The spec's description of the display line for a tick, stated with
the spec's own substring operation. -/
def specDisplayLine (line : String) (terminalWidth frame : Int) : String :=
  let offset : Int := terminalWidth - frame
  let d : String :=
    if 0 ≤ offset then
      strRepeat " " offset.toNat ++ specVisibleSubstring line 0 (terminalWidth - offset)
    else
      specVisibleSubstring line (-offset) terminalWidth
  padToWidth d terminalWidth " "

/-- `Math.max(...lines.map(getVisibleWidth))` over the (always
non-empty) list of banner lines. -/
def maxLinesWidth (lines : List String) : Nat :=
  lines.foldl (fun a l => max a (getVisibleWidth l)) 0

/-- Observable events of an animation run: terminal writes, cursor
visibility changes, and the per-tick sleep. -/
inductive Ev where
  | hideCursor : Ev
  | showCursor : Ev
  | write : String → Ev
  | sleep : Int → Ev
deriving DecidableEq, Repr

/-- ANSI clear-line escape written before each banner line. -/
def CLEAR_LINE : String := "\x1b[2K"

/-- ANSI cursor-to-column-0 escape written after each frame. -/
def CURSOR_TO_START : String := "\x1b[0G"

/-- ANSI cursor-up escape used to reposition over the banner. -/
def MOVE_UP (n : Nat) : String := "\x1b[" ++ toString n ++ "A"

/-- Writes of the inner line loop of a tick (animation.ts lines
207-226): each line is cleared and redrawn, with a newline after every
line but the last. -/
def lineEvents (terminalWidth frame : Int) : List String → List Ev
  | [] => []
  | [l] => [Ev.write (CLEAR_LINE ++ displayLineCode l terminalWidth frame)]
  | l :: ls =>
    Ev.write (CLEAR_LINE ++ displayLineCode l terminalWidth frame) ::
      Ev.write "\n" :: lineEvents terminalWidth frame ls

/-- All events of one tick of `runSingleCycle` (animation.ts lines
205-233): redraw every line, move the cursor back up for multi-line
banners, return to column 0, then sleep for `speed` milliseconds. -/
def tickEvents (paddedLines : List String) (terminalWidth : Int)
    (bannerHeight : Nat) (speed : Int) (frame : Int) : List Ev :=
  lineEvents terminalWidth frame paddedLines ++
    (if 1 < bannerHeight then [Ev.write (MOVE_UP (bannerHeight - 1))] else []) ++
    [Ev.write CURSOR_TO_START, Ev.sleep speed]

/-- The frame loop of `runSingleCycle`: frames run in order; a tick at
which the body throws (modelled by `failAt`) ends the loop early with
the failure flag `false`. -/
def frameLoop (tick : Nat → List Ev) (failAt : Option Nat) :
    Nat → Nat → List Ev × Bool
  | 0, _ => ([], true)
  | fuel + 1, frame =>
    if failAt = some frame then ([], false)
    else
      let r := frameLoop tick failAt fuel (frame + 1)
      (tick frame ++ r.1, r.2)

/-- JS `split('\n')` on the code-point list: an empty string yields one
empty piece, and every newline starts a new piece. -/
def splitNl : List Char → List String
  | [] => [""]
  | c :: cs =>
    if c = '\n' then "" :: splitNl cs
    else
      match splitNl cs with
      | [] => [String.singleton c]
      | l :: ls => (String.singleton c ++ l) :: ls

/-- Banner lines, as `bannerText.split('\n')` produces them. -/
def linesOf (bannerText : String) : List String :=
  splitNl bannerText.toList

/-- The banner lines padded to the banner's maximum visual width
(animation.ts line 197). -/
def paddedOf (bannerText : String) : List String :=
  (linesOf bannerText).map
    (fun l => padToWidth l (maxLinesWidth (linesOf bannerText) : Int) " ")

/-- `totalFrames = terminalWidth + maxBannerWidth` as the loop bound of
`runSingleCycle` (the number of iterations of `for (frame = 0; frame <
totalFrames; frame++)`). -/
def totalFramesOf (bannerText : String) (terminalWidth : Int) : Nat :=
  (terminalWidth + (maxLinesWidth (linesOf bannerText) : Int)).toNat

/-- The event trace of `runSingleCycle(bannerText, {speed,
terminalWidth})` (animation.ts lines 189-239), with `failAt` naming a
tick at which the loop body throws (`none` for the normal run). The
`try`/`finally` shape makes cursor restoration and the trailing
newlines unconditional; the boolean records normal completion. -/
def runSingleCycleTrace (bannerText : String) (speed terminalWidth : Int)
    (failAt : Option Nat) : List Ev × Bool :=
  let bannerHeight := (linesOf bannerText).length
  let body := frameLoop
    (fun f => tickEvents (paddedOf bannerText) terminalWidth bannerHeight speed (f : Int))
    failAt (totalFramesOf bannerText terminalWidth) 0
  (Ev.hideCursor :: (body.1 ++ [Ev.showCursor, Ev.write (strRepeat "\n" bannerHeight)]),
    body.2)

/-! ### Basic width lemmas -/

theorem charWidth_pos (c : Char) : 1 ≤ charWidth c := by
  unfold charWidth; split <;> omega

theorem charWidth_le_two (c : Char) : charWidth c ≤ 2 := by
  unfold charWidth; split <;> omega

theorem widthL_append (a b : List Char) :
    widthL (a ++ b) = widthL a + widthL b := by
  induction a with
  | nil => simp [widthL]
  | cons c cs ih => simp [widthL, ih]; omega

theorem gvw_singleton (c : Char) :
    getVisibleWidth (String.singleton c) = charWidth c := rfl

theorem gvw_mk (l : List Char) : getVisibleWidth (String.mk l) = widthL l := rfl

theorem widthL_cast (c : Char) (cs : List Char) :
    (widthL (c :: cs) : Int) = (charWidth c : Int) + (widthL cs : Int) := by
  simp [widthL]

theorem gvw_append (a b : String) :
    getVisibleWidth (a ++ b) = getVisibleWidth a + getVisibleWidth b := by
  simp only [getVisibleWidth, String.toList]
  rw [String.data_append, widthL_append]

theorem gvw_strRepeat_space (n : Nat) : getVisibleWidth (strRepeat " " n) = n := by
  induction n with
  | zero => rfl
  | succ k ih =>
    rw [strRepeat, gvw_append, ih]
    have h1 : getVisibleWidth " " = 1 := rfl
    omega

/-! ### The loop of visibleSubstring against the spec's two phases -/

theorem vsL_collect (start length : Int) :
    ∀ (us : List Char) (p w : Int), start < p →
      vsL start length us p w = specCollect length us w := by
  intro us
  induction us with
  | nil => intro p w _; rfl
  | cons c cs ih =>
    intro p w hp
    have hw : (1 : Int) ≤ (charWidth c : Int) := by exact_mod_cast charWidth_pos c
    simp only [vsL, specCollect, gvw_singleton]
    rw [if_neg (by omega)]
    by_cases h : w < length
    · rw [if_neg (by omega), if_pos h]
      congr 1
      exact ih _ _ (by omega)
    · rw [if_pos (by omega), if_neg h]

theorem vsL_eq_spec_aux (start length : Int) :
    ∀ (us : List Char) (p : Int),
      vsL start length us p 0 = specCollect length (specSkip start us p) 0 := by
  intro us
  induction us with
  | nil => intro p; rfl
  | cons c cs ih =>
    intro p
    have hw : (1 : Int) ≤ (charWidth c : Int) := by exact_mod_cast charWidth_pos c
    simp only [vsL, specSkip, gvw_singleton]
    by_cases hskip : p + (charWidth c : Int) ≤ start
    · rw [if_pos hskip, if_pos hskip, ih]
    · rw [if_neg hskip, if_neg hskip]
      simp only [specCollect]
      by_cases hlen : (0 : Int) < length
      · rw [if_neg (by omega), if_pos hlen]
        have h2 := vsL_collect start length cs (p + (charWidth c : Int))
          ((0 : Int) + (charWidth c : Int)) (by omega)
        rw [h2]
      · rw [if_pos (by omega), if_neg hlen]

theorem visibleSubstring_eq_spec (s : String) (start length : Int) :
    visibleSubstring s start length = specVisibleSubstring s start length := by
  unfold visibleSubstring specVisibleSubstring
  rw [vsL_eq_spec_aux]

/-! ### Phase lemmas for the skip phase -/

theorem specSkip_all (start : Int) :
    ∀ (us : List Char) (pos : Int), pos + (widthL us : Int) ≤ start →
      specSkip start us pos = [] := by
  intro us
  induction us with
  | nil => intro pos _; rfl
  | cons c cs ih =>
    intro pos h
    have hws := widthL_cast c cs
    simp only [specSkip]
    rw [if_pos (by omega)]
    exact ih _ (by omega)

theorem specSkip_append (start : Int) (q : List Char) :
    ∀ (p : List Char) (pos : Int), pos + (widthL p : Int) ≤ start →
      specSkip start (p ++ q) pos = specSkip start q (pos + widthL p) := by
  intro p
  induction p with
  | nil => intro pos _; simp [widthL]
  | cons c cs ih =>
    intro pos h
    have hws := widthL_cast c cs
    simp only [List.cons_append, specSkip]
    rw [if_pos (by omega)]
    have harg : pos + (widthL (c :: cs) : Int) =
        (pos + (charWidth c : Int)) + (widthL cs : Int) := by omega
    rw [harg]
    exact ih _ (by omega)

theorem specSkip_none (start : Int) (us : List Char) (pos : Int) (h : start ≤ pos) :
    specSkip start us pos = us := by
  cases us with
  | nil => rfl
  | cons c cs =>
    have hw : (1 : Int) ≤ (charWidth c : Int) := by exact_mod_cast charWidth_pos c
    simp only [specSkip]
    rw [if_neg (by omega)]

/-! ### Phase lemmas for the collect phase -/

theorem specCollect_stop (length : Int) (us : List Char) (w : Int)
    (h : length ≤ w) : specCollect length us w = [] := by
  cases us with
  | nil => rfl
  | cons c cs => simp only [specCollect]; rw [if_neg (by omega)]

theorem specCollect_all (length : Int) :
    ∀ (us : List Char) (w : Int), w + (widthL us : Int) ≤ length →
      specCollect length us w = us := by
  intro us
  induction us with
  | nil => intro w _; rfl
  | cons c cs ih =>
    intro w h
    have hw : (1 : Int) ≤ (charWidth c : Int) := by exact_mod_cast charWidth_pos c
    have hws := widthL_cast c cs
    simp only [specCollect]
    rw [if_pos (by omega)]
    congr 1
    exact ih _ (by omega)

theorem specCollect_exact (length : Int) (q : List Char) :
    ∀ (p : List Char) (w : Int), w + (widthL p : Int) = length →
      specCollect length (p ++ q) w = p := by
  intro p
  induction p with
  | nil =>
    intro w h
    simp only [List.nil_append]
    exact specCollect_stop length q w (by simp [widthL] at h; omega)
  | cons c cs ih =>
    intro w h
    have hw : (1 : Int) ≤ (charWidth c : Int) := by exact_mod_cast charWidth_pos c
    have hws := widthL_cast c cs
    have hwcs : (0 : Int) ≤ (widthL cs : Int) := by positivity
    simp only [List.cons_append, specCollect]
    rw [if_pos (by omega)]
    congr 1
    exact ih _ (by omega)

theorem specCollect_bound (length : Int) :
    ∀ (us : List Char) (w : Int), w ≤ length →
      w + (widthL (specCollect length us w) : Int) ≤ length + 1 := by
  intro us
  induction us with
  | nil => intro w h; simp only [specCollect, widthL]; omega
  | cons c cs ih =>
    intro w h
    have hw1 : 1 ≤ charWidth c := charWidth_pos c
    have hw2 : charWidth c ≤ 2 := charWidth_le_two c
    simp only [specCollect]
    by_cases hc : w < length
    · rw [if_pos hc, widthL_cast]
      by_cases h2 : w + (charWidth c : Int) ≤ length
      · have := ih (w + (charWidth c : Int)) h2
        omega
      · rw [specCollect_stop length cs _ (by omega)]
        simp only [widthL]
        omega
    · rw [if_neg hc]
      simp only [widthL]
      omega

theorem specCollect_over (length : Int) :
    ∀ (us : List Char) (w : Int), w ≤ length →
      w + (widthL (specCollect length us w) : Int) = length + 1 →
      ∃ pre c, specCollect length us w = pre ++ [c] ∧ charWidth c = 2 ∧
        w + (widthL pre : Int) = length - 1 := by
  intro us
  induction us with
  | nil =>
    intro w h heq
    simp only [specCollect, widthL] at heq
    omega
  | cons c cs ih =>
    intro w h heq
    have hw1 : 1 ≤ charWidth c := charWidth_pos c
    have hw2 : charWidth c ≤ 2 := charWidth_le_two c
    simp only [specCollect] at heq ⊢
    by_cases hc : w < length
    · rw [if_pos hc] at heq ⊢
      rw [widthL_cast] at heq
      by_cases h2 : w + (charWidth c : Int) ≤ length
      · obtain ⟨pre, d, hEq, hcd, hpre⟩ := ih (w + (charWidth c : Int)) h2 (by omega)
        refine ⟨c :: pre, d, ?_, hcd, ?_⟩
        · rw [hEq, List.cons_append]
        · rw [widthL_cast]
          omega
      · rw [specCollect_stop length cs _ (by omega)] at heq ⊢
        simp only [widthL] at heq
        refine ⟨[], c, rfl, by omega, ?_⟩
        simp only [widthL]
        omega
    · rw [if_neg hc] at heq
      simp only [widthL] at heq
      omega

/-! ### Characterization of padToWidth -/

theorem pad_big (str : String) (t : Int) (pc : String)
    (h : t ≤ (getVisibleWidth str : Int)) : padToWidth str t pc = str := by
  simp only [padToWidth]
  rw [if_pos h]

theorem pad_small (str : String) (t : Int) (pc : String)
    (h : (getVisibleWidth str : Int) < t) :
    padToWidth str t pc = str ++ strRepeat pc (t - (getVisibleWidth str : Int)).toNat := by
  simp only [padToWidth]
  rw [if_neg (by omega)]

theorem gvw_padToWidth (s : String) (t : Int) :
    getVisibleWidth (padToWidth s t " ") = max (getVisibleWidth s) t.toNat := by
  by_cases h : t ≤ (getVisibleWidth s : Int)
  · rw [pad_big s t " " h]
    omega
  · rw [pad_small s t " " (by omega), gvw_append, gvw_strRepeat_space]
    omega

/-! ### The frame loop of runSingleCycle -/

theorem frameLoop_none (tick : Nat → List Ev) :
    ∀ (fuel k : Nat),
      frameLoop tick none fuel k =
        (((List.range fuel).map (fun j => tick (k + j))).flatten, true) := by
  intro fuel
  induction fuel with
  | zero => intro k; simp [frameLoop]
  | succ n ih =>
    intro k
    simp only [frameLoop]
    rw [if_neg (by simp), ih (k + 1)]
    simp only [List.range_succ_eq_map, List.map_cons, List.map_map, List.flatten_cons,
      Nat.add_zero, Prod.mk.injEq]
    refine ⟨?_, trivial⟩
    congr 1
    congr 1
    apply List.map_congr_left
    intro j _
    simp only [Function.comp]
    congr 1
    omega

theorem frameLoop_none_zero (tick : Nat → List Ev) (fuel : Nat) :
    frameLoop tick none fuel 0 = (((List.range fuel).map tick).flatten, true) := by
  rw [frameLoop_none]
  simp

/-! ### Claims -/

/-- Claim C1: for every string s and integers start ≥ 0 and length ≥ 0,
visibleSubstring iterates the string's units in order, skips every unit
whose cumulative width ends at or before start, then collects units
until the accumulated output width reaches length, and returns the
collected run verbatim, never splitting a unit. -/
theorem visibleSubstring_matches_spec (s : String) (start length : Int)
    (h0 : 0 ≤ start) (h1 : 0 ≤ length) :
    visibleSubstring s start length = specVisibleSubstring s start length :=
  visibleSubstring_eq_spec s start length

theorem visibleSubstring_matches_spec_witness :
    (0 : Int) ≤ 2 ∧
      visibleSubstring "🔥🔥🔥" 2 2 = specVisibleSubstring "🔥🔥🔥" 2 2 :=
  ⟨by norm_num, visibleSubstring_matches_spec "🔥🔥🔥" 2 2 (by norm_num) (by norm_num)⟩

/-- Claim C2: for every banner line, terminal width ≥ 1 and frame, the
display line equals the spec's formula (offset spaces plus a visible
prefix when offset ≥ 0, else a window at -offset), padded to the
terminal width; and in the concrete scenario with terminalWidth 10 and
a banner of maximum visual width 4, frame 0 gives offset 10 and ten
spaces, frame 10 gives offset 0, and totalFrames is 14. -/
theorem displayLine_matches_spec (line : String) (terminalWidth frame : Int)
    (h : 1 ≤ terminalWidth) :
    displayLineCode line terminalWidth frame = specDisplayLine line terminalWidth frame
    ∧ (10 : Int) - 0 = 10
    ∧ displayLineCode "abcd" 10 0 = strRepeat " " 10
    ∧ (10 : Int) - 10 = 0
    ∧ (10 : Int) + (maxLinesWidth (linesOf "abcd") : Int) = 14 := by
  refine ⟨?_, by norm_num, ?_, by norm_num, by decide⟩
  · unfold displayLineCode specDisplayLine
    simp only [visibleSubstring_eq_spec]
  · decide

theorem displayLine_matches_spec_witness :
    displayLineCode "abcd" 10 0 = strRepeat " " 10 :=
  (displayLine_matches_spec "abcd" 10 0 (by norm_num)).2.2.1

/-- Claim C3: for terminalWidth ≥ 1 and speed ≥ 1 the bounded animator
executes exactly totalFrames = terminalWidth + maxBannerVisualWidth
ticks and terminates, and its trace restores cursor visibility at the
end on the normal path and on a thrown-failure path alike. -/
theorem singleCycle_closure (banner : String) (speed tw : Int) (failAt : Option Nat)
    (hs : 1 ≤ speed) (htw : 1 ≤ tw) :
    runSingleCycleTrace banner speed tw none =
      (Ev.hideCursor ::
        (((List.range (totalFramesOf banner tw)).map
            (fun (f : Nat) =>
              tickEvents (paddedOf banner) tw (linesOf banner).length speed (f : Int))).flatten
          ++ [Ev.showCursor, Ev.write (strRepeat "\n" (linesOf banner).length)]), true)
    ∧ (totalFramesOf banner tw : Int) = tw + (maxLinesWidth (linesOf banner) : Int)
    ∧ ∃ pre, (runSingleCycleTrace banner speed tw failAt).1 =
        Ev.hideCursor ::
          (pre ++ [Ev.showCursor, Ev.write (strRepeat "\n" (linesOf banner).length)]) := by
  refine ⟨?_, ?_, ?_⟩
  · simp only [runSingleCycleTrace]
    rw [frameLoop_none_zero]
  · have h0 : (0 : Int) ≤ (maxLinesWidth (linesOf banner) : Int) := by positivity
    unfold totalFramesOf
    omega
  · exact ⟨_, rfl⟩

theorem singleCycle_closure_witness :
    ∃ pre, (runSingleCycleTrace "ab" 1 2 (some 1)).1 =
      Ev.hideCursor ::
        (pre ++ [Ev.showCursor, Ev.write (strRepeat "\n" (linesOf "ab").length)]) :=
  (singleCycle_closure "ab" 1 2 (some 1) (by norm_num) (by norm_num)).2.2

/-- Claim C4: for 0 ≤ start ≤ visualWidth s, if no unit straddles the
split point at visual position start (start is a cumulative-width
boundary), concatenating the two visible substrings reconstructs s. -/
theorem visibleSubstring_composition (s : String) (start : Int) (h0 : 0 ≤ start)
    (h1 : start ≤ (getVisibleWidth s : Int))
    (h2 : ∃ k, (widthL (s.toList.take k) : Int) = start) :
    visibleSubstring s 0 start ++
      visibleSubstring s start ((getVisibleWidth s : Int) - start) = s := by
  obtain ⟨k, hk⟩ := h2
  have hgs : getVisibleWidth s = widthL s.toList := rfl
  have hpq : s.toList.take k ++ s.toList.drop k = s.toList := List.take_append_drop k s.toList
  have hws : widthL (s.toList.take k) + widthL (s.toList.drop k) = widthL s.toList := by
    rw [← widthL_append, hpq]
  have e1 : visibleSubstring s 0 start = String.mk (s.toList.take k) := by
    rw [visibleSubstring_eq_spec]
    unfold specVisibleSubstring
    rw [specSkip_none 0 s.toList 0 le_rfl]
    have hcol : specCollect start s.toList 0 = s.toList.take k := by
      conv_lhs => rw [← hpq]
      exact specCollect_exact start (s.toList.drop k) (s.toList.take k) 0 (by omega)
    rw [hcol]
  have e2 : visibleSubstring s start ((getVisibleWidth s : Int) - start) =
      String.mk (s.toList.drop k) := by
    rw [visibleSubstring_eq_spec]
    unfold specVisibleSubstring
    have hskip : specSkip start s.toList 0 = s.toList.drop k := by
      conv_lhs => rw [← hpq]
      rw [specSkip_append start (s.toList.drop k) (s.toList.take k) 0 (by omega)]
      exact specSkip_none start (s.toList.drop k) _ (by omega)
    rw [hskip]
    have hcol : specCollect ((getVisibleWidth s : Int) - start) (s.toList.drop k) 0 =
        s.toList.drop k :=
      specCollect_all _ (s.toList.drop k) 0 (by omega)
    rw [hcol]
  rw [e1, e2]
  rw [show String.mk (s.toList.take k) ++ String.mk (s.toList.drop k) =
    String.mk (s.toList.take k ++ s.toList.drop k) from rfl, hpq]
  rfl

theorem visibleSubstring_composition_witness :
    visibleSubstring "ab🔥" 0 2 ++
      visibleSubstring "ab🔥" 2 ((getVisibleWidth "ab🔥" : Int) - 2) = "ab🔥" :=
  visibleSubstring_composition "ab🔥" 2 (by norm_num) (by decide) ⟨2, by decide⟩

/-- Claim C5: padding to a target visual width n ≥ visualWidth s is
idempotent. -/
theorem padToWidth_idem (s : String) (n : Int)
    (h : (getVisibleWidth s : Int) ≤ n) :
    padToWidth (padToWidth s n " ") n " " = padToWidth s n " " := by
  apply pad_big
  rw [gvw_padToWidth]
  omega

theorem padToWidth_idem_witness :
    ((getVisibleWidth "🔥" : Int) ≤ 4) ∧
      padToWidth (padToWidth "🔥" 4 " ") 4 " " = padToWidth "🔥" 4 " " :=
  ⟨by decide, padToWidth_idem "🔥" 4 (by decide)⟩

/-- Claim C6: the visual width of a string is at least its number of
units, each unit contributing width 1 or 2. -/
theorem visualWidth_monotone (s : String) :
    s.toList.length ≤ getVisibleWidth s ∧
      ∀ c : Char, charWidth c = 1 ∨ charWidth c = 2 := by
  constructor
  · show s.toList.length ≤ widthL s.toList
    induction s.toList with
    | nil => simp [widthL]
    | cons c cs ih =>
      have := charWidth_pos c
      simp only [List.length_cons, widthL]
      omega
  · intro c
    unfold charWidth
    split <;> simp

/-- Claim C7: padToWidth returns s unchanged when its visual width is
at least the target, else appends the pad character exactly
target - visualWidth(s) times, and never truncates s. -/
theorem padToWidth_characterization (s : String) (target : Int) :
    (target ≤ (getVisibleWidth s : Int) → padToWidth s target " " = s)
    ∧ ((getVisibleWidth s : Int) < target →
        padToWidth s target " " =
          s ++ strRepeat " " (target - (getVisibleWidth s : Int)).toNat)
    ∧ ∃ t, padToWidth s target " " = s ++ t := by
  refine ⟨pad_big s target " ", pad_small s target " ", ?_⟩
  by_cases h : target ≤ (getVisibleWidth s : Int)
  · exact ⟨"", by rw [pad_big s target " " h]; simp⟩
  · exact ⟨_, pad_small s target " " (by omega)⟩

/-- Claim C8: the empty string has width 0, padding it yields only pad
characters, its substring is empty; a start at or beyond the end of s
gives an empty substring, and length 0 gives an empty substring. -/
theorem textEngine_edge_cases :
    getVisibleWidth "" = 0
    ∧ (∀ n : Int, 0 ≤ n → padToWidth "" n " " = strRepeat " " n.toNat)
    ∧ (∀ start len : Int, visibleSubstring "" start len = "")
    ∧ (∀ (s : String) (start len : Int), (getVisibleWidth s : Int) ≤ start →
        visibleSubstring s start len = "")
    ∧ (∀ (s : String) (start : Int), visibleSubstring s start 0 = "") := by
  refine ⟨rfl, ?_, ?_, ?_, ?_⟩
  · intro n hn
    by_cases h : n ≤ 0
    · have hn0 : n = 0 := le_antisymm h hn
      subst hn0
      rfl
    · rw [pad_small "" n " " (by simp [getVisibleWidth, widthL]; omega)]
      have : ((getVisibleWidth "" : Int)) = 0 := rfl
      rw [this, sub_zero]
      rfl
  · intro start len
    rfl
  · intro s start len h
    rw [visibleSubstring_eq_spec]
    unfold specVisibleSubstring
    rw [specSkip_all start s.toList 0 (by have : getVisibleWidth s = widthL s.toList := rfl; omega)]
    rfl
  · intro s start
    rw [visibleSubstring_eq_spec]
    unfold specVisibleSubstring
    rw [specCollect_stop 0 _ 0 le_rfl]

/-- Claim C9 as stated is false: the engine does not raise on negative
width arguments; at the concrete inputs below the pad call returns its
argument unchanged and the substring call returns the empty string. -/
theorem negative_width_no_raise_cex :
    padToWidthE "a" (-1) " " = Except.ok "a" ∧ visibleSubstring "a" 0 (-1) = "" := by
  constructor <;> rfl

/-- Claim C9 amended: the Width-Aware Text Engine never raises on a
width argument: padToVisualWidth returns normally for every target (a
negative target returns s unchanged, since the width is already at
least the target), and visibleSubstring with negative length returns
the empty string. -/
theorem negative_width_no_raise (s : String) (t : Int) (ht : t < 0) :
    (∀ u : Int, padToWidthE s u " " = Except.ok (padToWidth s u " "))
    ∧ padToWidth s t " " = s
    ∧ (∀ start : Int, visibleSubstring s start t = "") := by
  refine ⟨?_, ?_, ?_⟩
  · intro u
    by_cases h : u ≤ (getVisibleWidth s : Int)
    · simp only [padToWidthE, padToWidth]
      rw [if_pos h, if_pos h]
    · simp only [padToWidthE, padToWidth, strRepeatE]
      rw [if_neg h, if_neg h, if_neg (by omega)]
      rfl
  · exact pad_big s t " " (by omega)
  · intro start
    rw [visibleSubstring_eq_spec]
    unfold specVisibleSubstring
    rw [specCollect_stop t _ 0 (by omega)]

theorem negative_width_no_raise_witness :
    padToWidth "a" (-2) " " = "a" :=
  (negative_width_no_raise "a" (-2) (by norm_num)).2.1

/-- Claim C10: for start ≥ 0 and length ≥ 0 the visual width of the
substring is at most length + 1, and it equals length + 1 exactly when
the last collected unit has width 2 and only one column of the
requested length remained before it. -/
theorem visibleSubstring_width_bound (s : String) (start len : Int)
    (h0 : 0 ≤ start) (h1 : 0 ≤ len) :
    (getVisibleWidth (visibleSubstring s start len) : Int) ≤ len + 1
    ∧ ((getVisibleWidth (visibleSubstring s start len) : Int) = len + 1 ↔
        ∃ (pre : List Char) (c : Char),
          (visibleSubstring s start len).toList = pre ++ [c] ∧ charWidth c = 2 ∧
            (widthL pre : Int) = len - 1) := by
  have hrw : (visibleSubstring s start len).toList =
      specCollect len (specSkip start s.toList 0) 0 := by
    rw [visibleSubstring_eq_spec]
    rfl
  have hgw : getVisibleWidth (visibleSubstring s start len) =
      widthL ((visibleSubstring s start len).toList) := rfl
  constructor
  · rw [hgw, hrw]
    have := specCollect_bound len (specSkip start s.toList 0) 0 h1
    omega
  · constructor
    · intro heq
      rw [hgw, hrw] at heq
      obtain ⟨pre, c, hEq, h2, h3⟩ :=
        specCollect_over len (specSkip start s.toList 0) 0 h1 (by omega)
      exact ⟨pre, c, by rw [hrw, hEq], h2, by omega⟩
    · rintro ⟨pre, c, hEq, h2, h3⟩
      rw [hgw, hEq, widthL_append]
      simp only [widthL, h2]
      omega

theorem visibleSubstring_width_bound_witness :
    (getVisibleWidth (visibleSubstring "🔥" 0 1) : Int) ≤ 1 + 1 :=
  (visibleSubstring_width_bound "🔥" 0 1 (by norm_num) (by norm_num)).1

end Emjtxt
